import Mathlib

/-!
Verification of the Wordle solver (`WordleSolver.py`): a shallow embedding of
the pattern engine (`get_pattern`, `get_pattern_cached`), the entropy scorer
(`calculate_entropy`, `get_best_guess`) and the constraint store and filter
(`update_state`, `is_word_valid`, `clean_constraints`), together with theorems
about the spec's claims.

Words are modelled as lists of characters; feedback symbols use the source's
own characters 'C' (Correct), 'P' (Present), 'A' (Absent); an unknown fixed
position is the source's placeholder '?'.
-/

namespace WordleSolver

/-- Words are 5-letter uppercase strings in the source; modelled as `List Char`. -/
abbrev Word := List Char

/-- Feedback pattern: one symbol 'C'/'P'/'A' per position (the Python code
builds a tuple of one-character strings). -/
abbrev Pattern := List Char

/-- `counts[g] += 1` on the per-letter consumed counter (a `defaultdict(int)`,
modelled as a total function `Char → Nat` that starts at the first pass's
result). -/
def bump (counts : Char → Nat) (c : Char) : Char → Nat :=
  fun x => if x = c then counts c + 1 else counts x

/-- First pass of `get_pattern`: for every position with `guess[i] == target[i]`
the letter's consumed counter is incremented, so after the pass
`counts[c]` is the number of positions where guess and target agree on `c`. -/
def initCounts (guess target : List Char) (c : Char) : Nat :=
  (List.zip guess target).countP (fun p => decide (p.1 = c ∧ p.1 = p.2))

/-- The first pass also records which positions were marked 'C'; we keep the
guess letter together with that flag for the second pass. -/
def flagged (guess target : List Char) : List (Char × Bool) :=
  List.zipWith (fun g t => (g, decide (g = t))) guess target

/-- Second pass of `get_pattern`: positions already 'C' are kept; otherwise
the letter is 'P' when `total_in_target > counts[g]` (and the counter is
bumped), else 'A'. -/
def secondPass (target : List Char) : List (Char × Bool) → (Char → Nat) → List Char
  | [], _ => []
  | (g, isC) :: rest, counts =>
    if isC then 'C' :: secondPass target rest counts
    else if counts g < target.count g then 'P' :: secondPass target rest (bump counts g)
    else 'A' :: secondPass target rest counts

/-- `WordleSolver.get_pattern`: the two-pass Wordle feedback computation. -/
def get_pattern (guess target : Word) : Pattern :=
  secondPass target (flagged guess target) (initCounts guess target)

/-- The class-level `_pattern_cache`, modelled as an association list keyed by
the `(guess, target)` pair. -/
abbrev PatternCache := List ((Word × Word) × Pattern)

/-- `WordleSolver.get_pattern_cached`: look the pair up, computing and storing
`get_pattern` on a miss; returns the pattern and the (possibly extended)
cache. -/
def get_pattern_cached (cache : PatternCache) (guess target : Word) :
    Pattern × PatternCache :=
  match cache.lookup (guess, target) with
  | some p => (p, cache)
  | none => (get_pattern guess target, ((guess, target), get_pattern guess target) :: cache)

/-- The cache contents after a sequence of `get_pattern_cached` calls starting
from the empty cache (the only way the Python class attribute is ever
populated). -/
def cacheAfter : List (Word × Word) → PatternCache
  | [] => []
  | (g, t) :: rest => (get_pattern_cached (cacheAfter rest) g t).2

/-- `self.state`: the solver's accumulated knowledge.  `correct` is the
length-5 list with '?' placeholders, `present`/`absent` are Python sets. -/
structure KnowledgeState where
  possible : List Word
  correct : List Char
  present : Finset Char
  absent : Finset Char

/-- First check of `is_word_valid`: every known fixed position matches. -/
def checkFixed (st : KnowledgeState) (word : Word) : Bool :=
  decide (∀ p ∈ st.correct.zip word, p.1 ≠ '?' → p.2 = p.1)

/-- Second check of `is_word_valid`: every `present` letter occurs in the word. -/
def checkRequired (st : KnowledgeState) (word : Word) : Bool :=
  decide (∀ p ∈ st.present, p ∈ word)

/-- Third check of `is_word_valid`: no `absent` letter that is neither in
`correct` nor in `present` occurs in the word. -/
def checkExcluded (st : KnowledgeState) (word : Word) : Bool :=
  decide (∀ a ∈ st.absent, a ∉ st.correct → a ∉ st.present → a ∉ word)

/-- Fourth check of `is_word_valid`: no letter of the word is simultaneously in
`present` and equal to the `correct` entry at its own position. -/
def checkPresentSlot (st : KnowledgeState) (word : Word) : Bool :=
  decide (∀ p ∈ word.zip st.correct, ¬(p.1 ∈ st.present ∧ p.1 = p.2))

/-- `WordleSolver.is_word_valid`: the conjunction of the four checks, in the
source's order. -/
def is_word_valid (st : KnowledgeState) (word : Word) : Bool :=
  checkFixed st word && checkRequired st word &&
    checkExcluded st word && checkPresentSlot st word

/-- `WordleSolver.clean_constraints`: drop from `present` the letters already
in `correct`, then drop from `absent` the letters in `correct` or in the
already-cleaned `present`. -/
def clean_constraints (st : KnowledgeState) : KnowledgeState :=
  let cleanedPresent := st.present.filter (fun p => p ∉ st.correct)
  { st with
    present := cleanedPresent,
    absent := st.absent.filter (fun a => a ∉ st.correct ∧ a ∉ cleanedPresent) }

/-- The constraint-updating loop of `update_state`: each `(letter, color)` pair
of the feedback is processed at its index `i`; 'C' fixes the letter (and
removes it from `present`), 'P' adds to `present`, 'A' adds to `absent`. -/
def applyFB (st : KnowledgeState) (i : Nat) : List (Char × Char) → KnowledgeState
  | [] => st
  | (letter, color) :: rest =>
    if color = 'C' then
      applyFB { st with
                correct := st.correct.set i letter,
                present := st.present.erase letter } (i + 1) rest
    else if color = 'P' then
      applyFB { st with present := insert letter st.present } (i + 1) rest
    else if color = 'A' then
      applyFB { st with absent := insert letter st.absent } (i + 1) rest
    else applyFB st (i + 1) rest

/-- `WordleSolver.update_state`: process the feedback pairs, clean the
constraints, then keep only the possible words passing `is_word_valid`. -/
def update_state (st : KnowledgeState) (feedback : List (Char × Char)) : KnowledgeState :=
  let cleaned := clean_constraints (applyFB st 0 feedback)
  { cleaned with possible := cleaned.possible.filter (fun w => is_word_valid cleaned w) }

/-- Proof-internal predicate: a `(guess letter, flag), symbol` triple of the
second pass carries letter `c` and feedback symbol `s`. -/
def markHit (c s : Char) (p : (Char × Bool) × Char) : Bool :=
  decide (p.1.1 = c ∧ p.2 = s)

/-- Proof-internal predicate: a first-pass entry is an exact match on letter
`c`. -/
def flagHit (c : Char) (q : Char × Bool) : Bool :=
  decide (q.1 = c ∧ q.2 = true)

/-- Agreement of a cache with the pure function: every stored entry is the
`get_pattern` of its key.  Holds for every cache the program can ever build. -/
def goodCache (cache : PatternCache) : Prop :=
  ∀ (g t : Word) (p : Pattern), cache.lookup (g, t) = some p → p = get_pattern g t

/-- `WordleSolver.calculate_entropy`: tally the pattern of the word against
every remaining possible answer and return the Shannon entropy
`Σ -(count/total) * log2 (count/total)` over the distinct pattern buckets.
The Python float arithmetic is idealised as real arithmetic. -/
noncomputable def calculate_entropy (possible : List Word) (word : Word) : ℝ :=
  let pats := possible.map (fun p => get_pattern word p)
  let total : ℝ := (possible.length : ℝ)
  ((pats.dedup).map
    (fun q => -((pats.count q : ℝ) / total) * Real.logb 2 ((pats.count q : ℝ) / total))).sum

/-- The selection loop of `get_best_guess`: the running best `(word, score)`
pair is replaced exactly when the next score is strictly greater.  The Python
loop starts from `best_word = None` with `best_score = -inf`, so the first
candidate always replaces the initial accumulator: the `none` case takes the
first word unconditionally. -/
def bestLoop {β : Type} [LinearOrder β] (score : Word → β) :
    List Word → Option (Word × β) → Option (Word × β)
  | [], acc => acc
  | w :: ws, acc =>
    match acc with
    | none => bestLoop score ws (some (w, score w))
    | some (bw, bs) =>
      if bs < score w then bestLoop score ws (some (w, score w))
      else bestLoop score ws (some (bw, bs))

/-- `WordleSolver.get_best_guess`: entropy-maximise over the first 2315 words
of the allowed list, first-encountered word winning ties. -/
noncomputable def get_best_guess (allowed possible : List Word) : Option Word :=
  (bestLoop (calculate_entropy possible) (allowed.take 2315) none).map Prod.fst

/-! ### Basic lemmas about the constraint-update loop -/

theorem applyFB_possible (fb : List (Char × Char)) :
    ∀ (st : KnowledgeState) (i : Nat), (applyFB st i fb).possible = st.possible := by
  induction fb with
  | nil => intro st i; rfl
  | cons hd tl ih =>
    intro st i
    obtain ⟨letter, color⟩ := hd
    simp only [applyFB]
    split
    · exact ih _ _
    · split
      · exact ih _ _
      · split
        · exact ih _ _
        · exact ih _ _

theorem clean_constraints_possible (st : KnowledgeState) :
    (clean_constraints st).possible = st.possible := rfl

theorem clean_constraints_correct (st : KnowledgeState) :
    (clean_constraints st).correct = st.correct := rfl

theorem update_state_possible (st : KnowledgeState) (fb : List (Char × Char)) :
    (update_state st fb).possible =
      st.possible.filter (fun w => is_word_valid (clean_constraints (applyFB st 0 fb)) w) := by
  simp only [update_state, clean_constraints_possible, applyFB_possible]

/-! ### Claims C3, C5, C7, C8, C10 -/

/-- Claim C3 counterexample: for guess "CRANE" and target "SLATE" the code does
NOT return the pattern (Absent, Present, Absent, Correct, Present) stated in
the spec's concrete scenario. -/
theorem crane_slate_pattern_ne_spec :
    get_pattern ['C', 'R', 'A', 'N', 'E'] ['S', 'L', 'A', 'T', 'E'] ≠
      ['A', 'P', 'A', 'C', 'P'] := by decide

/-- Claim C3 (amended): for guess "CRANE" and target "SLATE" `get_pattern`
returns (Absent, Absent, Correct, Absent, Correct): 'C', 'R', 'N' are absent
from SLATE and 'A' (position 3) and 'E' (position 5) match exactly. -/
theorem crane_slate_pattern_eq :
    get_pattern ['C', 'R', 'A', 'N', 'E'] ['S', 'L', 'A', 'T', 'E'] =
      ['A', 'A', 'C', 'A', 'C'] := by decide

/-- Claim C5: for every state and feedback, the possible set after
`update_state` is a sublist (hence a subset, obtained by filtering, never
recomputed from the full universe) of the possible set before the call, and
its size never increases. -/
theorem update_state_possible_shrinks (st : KnowledgeState) (fb : List (Char × Char)) :
    ((update_state st fb).possible).Sublist st.possible ∧
      (update_state st fb).possible.length ≤ st.possible.length := by
  rw [update_state_possible]
  exact ⟨List.filter_sublist _, List.length_filter_le _ _⟩

/-- Claim C7: `clean_constraints` is idempotent: applying it twice yields the
same `present` and `absent` sets as applying it once. -/
theorem clean_constraints_idempotent (st : KnowledgeState) :
    (clean_constraints (clean_constraints st)).present = (clean_constraints st).present ∧
      (clean_constraints (clean_constraints st)).absent = (clean_constraints st).absent := by
  constructor
  · ext a
    simp [clean_constraints]
  · ext a
    simp [clean_constraints]

/-- Claim C8: after every `update_state` call the present set is disjoint from
the letters recorded in the fixed positions, and the absent set contains no
letter appearing among the fixed positions or in the present set. -/
theorem update_state_invariant (st : KnowledgeState) (fb : List (Char × Char)) :
    (∀ c ∈ (update_state st fb).present, c ∉ (update_state st fb).correct) ∧
      (∀ a ∈ (update_state st fb).absent,
        a ∉ (update_state st fb).correct ∧ a ∉ (update_state st fb).present) := by
  constructor
  · intro c hc
    simp [update_state, clean_constraints] at hc ⊢
    exact hc.2
  · intro a ha
    simp [update_state, clean_constraints] at ha ⊢
    exact ⟨ha.2.1, ha.2.2⟩

/-- Claim C10: when `present` is disjoint from the `correct` entries (as
`clean_constraints` establishes), the fourth check of `is_word_valid` can
never fire, so `is_word_valid` coincides with the conjunction of the first
three checks alone. -/
theorem is_word_valid_fourth_check_redundant (st : KnowledgeState) (w : Word)
    (h : ∀ p ∈ st.present, p ∉ st.correct) :
    is_word_valid st w = (checkFixed st w && checkRequired st w && checkExcluded st w) := by
  have h4 : checkPresentSlot st w = true := by
    simp only [checkPresentSlot, decide_eq_true_eq]
    rintro p hp ⟨hmem, heq⟩
    rw [heq] at hmem
    exact h p.2 hmem (List.of_mem_zip hp).2
  simp [is_word_valid, h4]

/-! ### Pattern engine lemmas -/

theorem secondPass_length (target : List Char) :
    ∀ (l : List (Char × Bool)) (cnt : Char → Nat),
      (secondPass target l cnt).length = l.length := by
  intro l
  induction l with
  | nil => intro cnt; rfl
  | cons hd tl ih =>
    intro cnt
    obtain ⟨g, isC⟩ := hd
    simp only [secondPass]
    split
    · simp [ih]
    · split
      · simp [ih]
      · simp [ih]

theorem secondPass_C_iff (target : List Char) :
    ∀ (l : List (Char × Bool)) (cnt : Char → Nat) (k : Nat), k < l.length →
      ((secondPass target l cnt).getD k '?' = 'C' ↔ (l.getD k ('?', false)).2 = true) := by
  intro l
  induction l with
  | nil => intro cnt k hk; simp at hk
  | cons hd tl ih =>
    intro cnt k hk
    obtain ⟨g, isC⟩ := hd
    match k with
    | 0 =>
      simp only [secondPass]
      by_cases hC : isC = true
      · simp [hC]
      · by_cases hP : cnt g < target.count g
        · simp [hC, hP]
        · simp [hC, hP]
    | k + 1 =>
      have hk' : k < tl.length := by simpa using hk
      simp only [secondPass]
      by_cases hC : isC = true
      · simpa [hC] using ih cnt k hk'
      · by_cases hP : cnt g < target.count g
        · simpa [hC, hP] using ih (bump cnt g) k hk'
        · simpa [hC, hP] using ih cnt k hk'

theorem secondPass_P_mem (target : List Char) :
    ∀ (l : List (Char × Bool)) (cnt : Char → Nat) (k : Nat), k < l.length →
      (secondPass target l cnt).getD k '?' = 'P' →
      (l.getD k ('?', false)).1 ∈ target := by
  intro l
  induction l with
  | nil => intro cnt k hk; simp at hk
  | cons hd tl ih =>
    intro cnt k hk hpat
    obtain ⟨g, isC⟩ := hd
    match k with
    | 0 =>
      simp only [secondPass] at hpat
      by_cases hC : isC = true
      · simp [hC] at hpat
      · by_cases hP : cnt g < target.count g
        · have : 0 < target.count g := Nat.lt_of_le_of_lt (Nat.zero_le _) hP
          simpa using List.count_pos_iff.mp this
        · simp [hC, hP] at hpat
    | k + 1 =>
      have hk' : k < tl.length := by simpa using hk
      simp only [secondPass] at hpat
      by_cases hC : isC = true
      · simp only [hC, if_true] at hpat
        simpa using ih cnt k hk' (by simpa using hpat)
      · by_cases hP : cnt g < target.count g
        · simp only [hC, if_false, hP, if_true] at hpat
          simpa using ih (bump cnt g) k hk' (by simpa using hpat)
        · simp only [hC, if_false, hP] at hpat
          simpa using ih cnt k hk' (by simpa using hpat)

theorem secondPass_symbol (target : List Char) :
    ∀ (l : List (Char × Bool)) (cnt : Char → Nat) (k : Nat), k < l.length →
      (secondPass target l cnt).getD k '?' = 'C' ∨
        (secondPass target l cnt).getD k '?' = 'P' ∨
        (secondPass target l cnt).getD k '?' = 'A' := by
  intro l
  induction l with
  | nil => intro cnt k hk; simp at hk
  | cons hd tl ih =>
    intro cnt k hk
    obtain ⟨g, isC⟩ := hd
    match k with
    | 0 =>
      simp only [secondPass]
      by_cases hC : isC = true
      · simp [hC]
      · by_cases hP : cnt g < target.count g
        · simp [hC, hP]
        · simp [hC, hP]
    | k + 1 =>
      have hk' : k < tl.length := by simpa using hk
      simp only [secondPass]
      by_cases hC : isC = true
      · simpa [hC] using ih cnt k hk'
      · by_cases hP : cnt g < target.count g
        · simpa [hC, hP] using ih (bump cnt g) k hk'
        · simpa [hC, hP] using ih cnt k hk'

theorem secondPass_A_case (target : List Char) :
    ∀ (l : List (Char × Bool)) (cnt : Char → Nat) (k : Nat), k < l.length →
      (secondPass target l cnt).getD k '?' = 'A' →
      target.count (l.getD k ('?', false)).1 ≤ cnt (l.getD k ('?', false)).1 ∨
        ∃ m, m < k ∧ (l.getD m ('?', false)).1 = (l.getD k ('?', false)).1 ∧
          (secondPass target l cnt).getD m '?' = 'P' := by
  intro l
  induction l with
  | nil => intro cnt k hk; simp at hk
  | cons hd tl ih =>
    intro cnt k hk hpat
    obtain ⟨g, isC⟩ := hd
    match k with
    | 0 =>
      simp only [secondPass] at hpat
      by_cases hC : isC = true
      · simp [hC] at hpat
      · by_cases hP : cnt g < target.count g
        · simp [hC, hP] at hpat
        · simp only [hC, if_false, hP] at hpat
          left
          simpa using Nat.le_of_not_lt hP
    | k + 1 =>
      have hk' : k < tl.length := by simpa using hk
      by_cases hC : isC = true
      · simp only [secondPass, hC, if_true] at hpat ⊢
        rcases ih cnt k hk' (by simpa using hpat) with h | ⟨m, hm, hml, hmp⟩
        · left; simpa using h
        · right
          exact ⟨m + 1, by omega, by simpa using hml, by simpa using hmp⟩
      · by_cases hP : cnt g < target.count g
        · simp only [secondPass, hC, if_false, hP, if_true] at hpat ⊢
          rcases ih (bump cnt g) k hk' (by simpa using hpat) with h | ⟨m, hm, hml, hmp⟩
          · by_cases hgc : (tl.getD k ('?', false)).1 = g
            · right
              refine ⟨0, Nat.zero_lt_succ _, by simpa using hgc.symm, by simp⟩
            · left
              simp only [bump, hgc, if_false] at h
              simpa using h
          · right
            exact ⟨m + 1, by omega, by simpa using hml, by simpa using hmp⟩
        · simp only [secondPass, hC, if_false, hP] at hpat ⊢
          rcases ih cnt k hk' (by simpa using hpat) with h | ⟨m, hm, hml, hmp⟩
          · left; simpa using h
          · right
            exact ⟨m + 1, by omega, by simpa using hml, by simpa using hmp⟩

theorem zip_getD {α β : Type} (a : List α) (b : List β) (k : Nat)
    (ha : k < a.length) (hb : k < b.length) (d₁ : α) (d₂ : β) :
    (List.zip a b).getD k (d₁, d₂) = (a.getD k d₁, b.getD k d₂) := by
  have hz : k < (List.zip a b).length := by
    rw [List.length_zip]; omega
  rw [List.getD_eq_getElem _ _ hz, List.getD_eq_getElem _ _ ha, List.getD_eq_getElem _ _ hb]
  exact List.getElem_zip

theorem flagged_length (guess target : List Char) :
    (flagged guess target).length = min guess.length target.length := by
  simp [flagged]

theorem flagged_eq_map (guess target : List Char) :
    flagged guess target = (List.zip guess target).map (fun p => (p.1, decide (p.1 = p.2))) := by
  induction guess generalizing target with
  | nil => simp [flagged]
  | cons g gs ih =>
    cases target with
    | nil => simp [flagged]
    | cons t ts =>
      simp only [flagged, List.zipWith_cons_cons, List.zip_cons_cons, List.map_cons] at ih ⊢
      exact congrArg _ (ih ts)

theorem flagged_getD (guess target : List Char) (k : Nat)
    (hg : k < guess.length) (ht : k < target.length) :
    (flagged guess target).getD k ('?', false) =
      (guess.getD k '?', decide (guess.getD k '?' = target.getD k '?')) := by
  have hf : k < (flagged guess target).length := by
    rw [flagged_length]; omega
  have hz : k < (List.zip guess target).length := by
    rw [List.length_zip]; omega
  rw [flagged_eq_map] at hf ⊢
  rw [List.getD_eq_getElem _ _ hf, List.getElem_map,
    List.getD_eq_getElem _ _ hg, List.getD_eq_getElem _ _ ht]
  congr 1 <;> rw [List.getElem_zip]

theorem get_pattern_length (guess target : Word) (h : guess.length = target.length) :
    (get_pattern guess target).length = guess.length := by
  rw [get_pattern, secondPass_length, flagged_length, h, Nat.min_self]

theorem get_pattern_C_iff (guess target : Word) (h : guess.length = target.length)
    (k : Nat) (hk : k < guess.length) :
    ((get_pattern guess target).getD k '?' = 'C' ↔ guess.getD k '?' = target.getD k '?') := by
  have hf : k < (flagged guess target).length := by
    rw [flagged_length]; omega
  rw [get_pattern, secondPass_C_iff target _ _ k hf,
    flagged_getD guess target k hk (by omega)]
  simp

theorem get_pattern_P_mem (guess target : Word) (h : guess.length = target.length)
    (k : Nat) (hk : k < guess.length) :
    (get_pattern guess target).getD k '?' = 'P' → guess.getD k '?' ∈ target := by
  intro hp
  have hf : k < (flagged guess target).length := by
    rw [flagged_length]; omega
  have hm := secondPass_P_mem target (flagged guess target) (initCounts guess target) k hf hp
  rwa [flagged_getD guess target k hk (by omega)] at hm

theorem get_pattern_symbol (guess target : Word) (h : guess.length = target.length)
    (k : Nat) (hk : k < guess.length) :
    (get_pattern guess target).getD k '?' = 'C' ∨
      (get_pattern guess target).getD k '?' = 'P' ∨
      (get_pattern guess target).getD k '?' = 'A' := by
  have hf : k < (flagged guess target).length := by
    rw [flagged_length]; omega
  exact secondPass_symbol target (flagged guess target) (initCounts guess target) k hf

theorem get_pattern_A_dup (guess target : Word) (h : guess.length = target.length)
    (k : Nat) (hk : k < guess.length)
    (ha : (get_pattern guess target).getD k '?' = 'A')
    (hmem : guess.getD k '?' ∈ target) :
    ∃ m, m < guess.length ∧ guess.getD m '?' = guess.getD k '?' ∧
      (get_pattern guess target).getD m '?' ≠ 'A' := by
  have hf : k < (flagged guess target).length := by
    rw [flagged_length]; omega
  have hcase := secondPass_A_case target (flagged guess target) (initCounts guess target) k hf ha
  rw [flagged_getD guess target k hk (by omega)] at hcase
  rcases hcase with hcnt | ⟨m, hmk, hml, hmp⟩
  · -- the letter's budget was already consumed by the first pass, so the
    -- letter has an exact match somewhere: that position is marked 'C'
    have hpos : 0 < initCounts guess target (guess.getD k '?') :=
      Nat.lt_of_lt_of_le (List.count_pos_iff.mpr hmem) hcnt
    rw [initCounts] at hpos
    obtain ⟨p, hpmem, hpred⟩ := List.countP_pos_iff.mp hpos
    obtain ⟨hp1, hp2⟩ := of_decide_eq_true hpred
    obtain ⟨n, hn, hnp⟩ := List.mem_iff_getElem.mp hpmem
    have hng : n < guess.length := by
      have := hn; rw [List.length_zip] at this; omega
    have hnt : n < target.length := by
      have := hn; rw [List.length_zip] at this; omega
    have hzip : (guess.getD n '?', target.getD n '?') = p := by
      rw [← hnp, List.getD_eq_getElem _ _ hng, List.getD_eq_getElem _ _ hnt]
      exact (List.getElem_zip).symm
    have hgn : guess.getD n '?' = guess.getD k '?' := by
      rw [← hzip] at hp1; exact hp1
    have htn : guess.getD n '?' = target.getD n '?' := by
      rw [← hzip] at hp2; exact hp2
    refine ⟨n, hng, hgn, ?_⟩
    rw [(get_pattern_C_iff guess target h n hng).mpr htn]
    decide
  · -- an earlier occurrence of the same letter was marked 'P'
    have hmg : m < guess.length := by omega
    rw [flagged_getD guess target m hmg (by omega)] at hml
    refine ⟨m, hmg, ?_, ?_⟩
    · exact hml
    · rw [get_pattern]
      rw [hmp]
      decide

/-! ### Letter-budget counting lemmas -/

theorem secondPass_cons_true (target : List Char) (g : Char)
    (tl : List (Char × Bool)) (cnt : Char → Nat) :
    secondPass target ((g, true) :: tl) cnt = 'C' :: secondPass target tl cnt := by
  simp [secondPass]

theorem secondPass_cons_hit (target : List Char) (g : Char)
    (tl : List (Char × Bool)) (cnt : Char → Nat) (hP : cnt g < target.count g) :
    secondPass target ((g, false) :: tl) cnt =
      'P' :: secondPass target tl (bump cnt g) := by
  simp [secondPass, hP]

theorem secondPass_cons_miss (target : List Char) (g : Char)
    (tl : List (Char × Bool)) (cnt : Char → Nat) (hP : ¬cnt g < target.count g) :
    secondPass target ((g, false) :: tl) cnt = 'A' :: secondPass target tl cnt := by
  simp [secondPass, hP]

theorem countP_markHit_cons (c s g : Char) (b : Bool) (s' : Char)
    (l : List ((Char × Bool) × Char)) :
    List.countP (markHit c s) (((g, b), s') :: l) =
      List.countP (markHit c s) l + if g = c ∧ s' = s then 1 else 0 := by
  rw [List.countP_cons]
  simp [markHit]

theorem countP_flagHit_cons (c g : Char) (b : Bool) (l : List (Char × Bool)) :
    List.countP (flagHit c) ((g, b) :: l) =
      List.countP (flagHit c) l + if g = c ∧ b = true then 1 else 0 := by
  rw [List.countP_cons]
  simp [flagHit]

theorem secondPass_P_count (target : List Char) (c : Char) :
    ∀ (l : List (Char × Bool)) (cnt : Char → Nat), cnt c ≤ target.count c →
      cnt c + (List.zip l (secondPass target l cnt)).countP (markHit c 'P') ≤
        target.count c := by
  intro l
  induction l with
  | nil => intro cnt h; simpa using h
  | cons hd tl ih =>
    intro cnt h
    obtain ⟨g, isC⟩ := hd
    by_cases hC : isC = true
    · subst hC
      rw [secondPass_cons_true, List.zip_cons_cons, countP_markHit_cons]
      have := ih cnt h
      rw [if_neg (show ¬(g = c ∧ ('C' : Char) = 'P') from fun hcon => by
        exact absurd hcon.2 (by decide))]
      omega
    · replace hC : isC = false := by
        cases isC
        · rfl
        · exact absurd rfl hC
      subst hC
      by_cases hP : cnt g < target.count g
      · rw [secondPass_cons_hit target g tl cnt hP, List.zip_cons_cons, countP_markHit_cons]
        by_cases hgc : g = c
        · subst hgc
          have hb : bump cnt g g = cnt g + 1 := by simp [bump]
          have ihb := ih (bump cnt g) (by rw [hb]; omega)
          rw [hb] at ihb
          rw [if_pos (show g = g ∧ ('P' : Char) = 'P' from ⟨rfl, rfl⟩)]
          omega
        · have hb : bump cnt g c = cnt c := by simp [bump, Ne.symm hgc]
          have ihb := ih (bump cnt g) (by rw [hb]; exact h)
          rw [hb] at ihb
          rw [if_neg (show ¬(g = c ∧ ('P' : Char) = 'P') from fun hcon => hgc hcon.1)]
          omega
      · rw [secondPass_cons_miss target g tl cnt hP, List.zip_cons_cons, countP_markHit_cons]
        have := ih cnt h
        rw [if_neg (show ¬(g = c ∧ ('A' : Char) = 'P') from fun hcon => by
          exact absurd hcon.2 (by decide))]
        omega

theorem secondPass_C_count (target : List Char) (c : Char) :
    ∀ (l : List (Char × Bool)) (cnt : Char → Nat),
      (List.zip l (secondPass target l cnt)).countP (markHit c 'C') =
        l.countP (flagHit c) := by
  intro l
  induction l with
  | nil => intro cnt; rfl
  | cons hd tl ih =>
    intro cnt
    obtain ⟨g, isC⟩ := hd
    by_cases hC : isC = true
    · subst hC
      rw [secondPass_cons_true, List.zip_cons_cons, countP_markHit_cons, countP_flagHit_cons,
        ih cnt]
      by_cases hgc : g = c
      · rw [if_pos (show g = c ∧ ('C' : Char) = 'C' from ⟨hgc, rfl⟩),
          if_pos (show g = c ∧ true = true from ⟨hgc, rfl⟩)]
      · rw [if_neg (show ¬(g = c ∧ ('C' : Char) = 'C') from fun hcon => hgc hcon.1),
          if_neg (show ¬(g = c ∧ true = true) from fun hcon => hgc hcon.1)]
    · replace hC : isC = false := by
        cases isC
        · rfl
        · exact absurd rfl hC
      subst hC
      by_cases hP : cnt g < target.count g
      · rw [secondPass_cons_hit target g tl cnt hP, List.zip_cons_cons, countP_markHit_cons,
          countP_flagHit_cons, ih (bump cnt g)]
        rw [if_neg (show ¬(g = c ∧ ('P' : Char) = 'C') from fun hcon => by
            exact absurd hcon.2 (by decide)),
          if_neg (show ¬(g = c ∧ false = true) from fun hcon => by
            exact absurd hcon.2 (by decide))]
      · rw [secondPass_cons_miss target g tl cnt hP, List.zip_cons_cons, countP_markHit_cons,
          countP_flagHit_cons, ih cnt]
        rw [if_neg (show ¬(g = c ∧ ('A' : Char) = 'C') from fun hcon => by
            exact absurd hcon.2 (by decide)),
          if_neg (show ¬(g = c ∧ false = true) from fun hcon => by
            exact absurd hcon.2 (by decide))]

theorem countP_or_split {α : Type} (a b : α → Bool)
    (hdisj : ∀ x, ¬(a x = true ∧ b x = true)) :
    ∀ l : List α, l.countP (fun x => a x || b x) = l.countP a + l.countP b := by
  intro l
  induction l with
  | nil => rfl
  | cons hd tl ih =>
    simp only [List.countP_cons, ih]
    cases ha : a hd <;> cases hb : b hd <;> simp_all <;> omega

theorem map_snd_zip_sublist {α β : Type} :
    ∀ (a : List α) (b : List β), ((List.zip a b).map Prod.snd).Sublist b
  | [], _ => by simp
  | _ :: _, [] => by simp
  | _ :: as, x :: xs => by
    rw [List.zip_cons_cons, List.map_cons]
    exact (map_snd_zip_sublist as xs).cons₂ x

theorem initCounts_eq_flagged_count (guess target : List Char) (c : Char) :
    initCounts guess target c = (flagged guess target).countP (flagHit c) := by
  rw [flagged_eq_map, List.countP_map, initCounts]
  refine List.countP_congr ?_
  intro p _
  simp [flagHit, Function.comp]

theorem initCounts_le_count (guess target : List Char) (c : Char) :
    initCounts guess target c ≤ target.count c := by
  rw [initCounts, List.count_eq_countP]
  calc (List.zip guess target).countP (fun p => decide (p.1 = c ∧ p.1 = p.2))
      ≤ (List.zip guess target).countP (fun p => p.2 == c) := by
        refine List.countP_mono_left ?_
        intro p _ hp
        obtain ⟨h1, h2⟩ := of_decide_eq_true hp
        simp [← h2, h1]
    _ ≤ target.countP (· == c) := by
        have hmap : (List.zip guess target).countP (fun p => p.2 == c) =
            ((List.zip guess target).map Prod.snd).countP (· == c) := by
          rw [List.countP_map]; rfl
        rw [hmap]
        exact (map_snd_zip_sublist guess target).countP_le _

/-- Claim C2: for equal-length words, `get_pattern` marks 'C' exactly at the
positions where guess and target agree, and for every letter the number of
'C' plus 'P' marks on occurrences of that letter in the guess is at most the
letter's number of occurrences in the target. -/
theorem get_pattern_marks (g t : Word) (h : g.length = t.length) :
    (∀ k, k < g.length →
      ((get_pattern g t).getD k '?' = 'C' ↔ g.getD k '?' = t.getD k '?')) ∧
    ∀ c : Char, (g.zip (get_pattern g t)).countP
        (fun p => decide (p.1 = c ∧ (p.2 = 'C' ∨ p.2 = 'P'))) ≤ t.count c := by
  constructor
  · intro k hk
    exact get_pattern_C_iff g t h k hk
  · intro c
    have hg : g = (flagged g t).map Prod.fst := by
      rw [flagged_eq_map, List.map_map]
      exact (List.map_fst_zip _ _ (le_of_eq h)).symm
    have hzip : g.zip (get_pattern g t) =
        ((flagged g t).zip (get_pattern g t)).map (Prod.map Prod.fst id) := by
      generalize get_pattern g t = out
      conv_lhs => rw [hg]
      exact List.zip_map_left _ _ _
    rw [hzip, List.countP_map]
    have hcongr : List.countP
        ((fun p => decide (p.1 = c ∧ (p.2 = 'C' ∨ p.2 = 'P'))) ∘ Prod.map Prod.fst id)
        ((flagged g t).zip (get_pattern g t)) =
        List.countP (fun r => markHit c 'C' r || markHit c 'P' r)
          ((flagged g t).zip (get_pattern g t)) := by
      refine List.countP_congr ?_
      intro r _
      simp only [Function.comp, Prod.map, markHit, id, Bool.or_eq_true, decide_eq_true_eq]
      tauto
    have hdisj : ∀ x, ¬(markHit c 'C' x = true ∧ markHit c 'P' x = true) := by
      intro x ⟨h1, h2⟩
      simp only [markHit, decide_eq_true_eq] at h1 h2
      exact absurd (h1.2.symm.trans h2.2) (by decide)
    rw [hcongr, countP_or_split (markHit c 'C') (markHit c 'P') hdisj, get_pattern,
      secondPass_C_count, ← initCounts_eq_flagged_count]
    exact secondPass_P_count t c (flagged g t) (initCounts g t) (initCounts_le_count g t c)

/-- Claim C2 witness: the theorem instantiated at the duplicate-letter
scenario "SPEED" versus "ERASE". -/
theorem get_pattern_marks_witness :
    (['S', 'P', 'E', 'E', 'D'].length = ['E', 'R', 'A', 'S', 'E'].length) ∧
    ((∀ k, k < (['S', 'P', 'E', 'E', 'D'] : Word).length →
      ((get_pattern ['S', 'P', 'E', 'E', 'D'] ['E', 'R', 'A', 'S', 'E']).getD k '?' = 'C' ↔
        (['S', 'P', 'E', 'E', 'D'] : Word).getD k '?' =
          (['E', 'R', 'A', 'S', 'E'] : Word).getD k '?')) ∧
    ∀ c : Char, ((['S', 'P', 'E', 'E', 'D'] : Word).zip
          (get_pattern ['S', 'P', 'E', 'E', 'D'] ['E', 'R', 'A', 'S', 'E'])).countP
        (fun p => decide (p.1 = c ∧ (p.2 = 'C' ∨ p.2 = 'P'))) ≤
      (['E', 'R', 'A', 'S', 'E'] : Word).count c) :=
  ⟨by decide, get_pattern_marks _ _ (by decide)⟩

/-! ### Cache lemmas (claim C9) -/

theorem goodCache_nil : goodCache [] := by
  intro g t p hp
  simp at hp

theorem get_pattern_cached_fst_of_good (cache : PatternCache) (g t : Word)
    (h : goodCache cache) :
    (get_pattern_cached cache g t).1 = get_pattern g t := by
  unfold get_pattern_cached
  split
  next p hp => exact h g t p hp
  next => rfl

theorem get_pattern_cached_snd_good (cache : PatternCache) (g t : Word)
    (h : goodCache cache) : goodCache (get_pattern_cached cache g t).2 := by
  unfold get_pattern_cached
  split
  next p hp => exact h
  next =>
    intro g' t' p' hp'
    rw [List.lookup_cons] at hp'
    cases hbeq : ((g', t') == (g, t)) with
    | true =>
      rw [hbeq] at hp'
      obtain ⟨hg', ht'⟩ := Prod.mk.injEq .. ▸ eq_of_beq hbeq
      cases hp'
      rw [hg', ht']
    | false =>
      rw [hbeq] at hp'
      exact h g' t' p' hp'

theorem cacheAfter_good (calls : List (Word × Word)) : goodCache (cacheAfter calls) := by
  induction calls with
  | nil => exact goodCache_nil
  | cons hd tl ih =>
    obtain ⟨g, t⟩ := hd
    exact get_pattern_cached_snd_good (cacheAfter tl) g t ih

/-- Claim C9: against any cache reachable by the program (the empty class
cache extended by any sequence of prior `get_pattern_cached` calls), the
memoized `get_pattern_cached` returns exactly `get_pattern` on every pair of
words, so caching never changes an observable result. -/
theorem get_pattern_cached_eq_get_pattern (calls : List (Word × Word)) (g t : Word) :
    (get_pattern_cached (cacheAfter calls) g t).1 = get_pattern g t :=
  get_pattern_cached_fst_of_good (cacheAfter calls) g t (cacheAfter_good calls)

/-! ### Entropy scorer lemmas (claims C4 and C6) -/

theorem calculate_entropy_nil (w : Word) : calculate_entropy [] w = 0 := by
  simp [calculate_entropy]

theorem bestLoop_keep {β : Type} [LinearOrder β] (s : Word → β) :
    ∀ (ws : List Word) (b : Word) (v : β), (∀ w ∈ ws, ¬v < s w) →
      bestLoop s ws (some (b, v)) = some (b, v) := by
  intro ws
  induction ws with
  | nil => intro b v _; rfl
  | cons hd tl ih =>
    intro b v h
    have hstep : bestLoop s (hd :: tl) (some (b, v)) =
        if v < s hd then bestLoop s tl (some (hd, s hd))
        else bestLoop s tl (some (b, v)) := rfl
    rw [hstep, if_neg (h hd (List.mem_cons_self hd tl))]
    exact ih b v (fun w hw => h w (List.mem_cons_of_mem hd hw))

theorem get_best_guess_singleton (w : Word) (possible : List Word) :
    get_best_guess [w] possible = some w := rfl

theorem bestLoop_first_argmax {β : Type} [LinearOrder β] (s : Word → β) :
    ∀ (ws : List Word) (b : Word),
      ∃ r, bestLoop s ws (some (b, s b)) = some (r, s r) ∧
        ((r = b ∧ ∀ u ∈ ws, s u ≤ s b) ∨
          (∃ l1 l2, ws = l1 ++ r :: l2 ∧ s b < s r ∧
            (∀ u ∈ l1, s u < s r) ∧ (∀ u ∈ l2, s u ≤ s r))) := by
  intro ws
  induction ws with
  | nil => intro b; exact ⟨b, rfl, Or.inl ⟨rfl, by simp⟩⟩
  | cons hd tl ih =>
    intro b
    by_cases hlt : s b < s hd
    · have hstep : bestLoop s (hd :: tl) (some (b, s b)) =
          bestLoop s tl (some (hd, s hd)) := by
        have : bestLoop s (hd :: tl) (some (b, s b)) =
            if s b < s hd then bestLoop s tl (some (hd, s hd))
            else bestLoop s tl (some (b, s b)) := rfl
        rw [this, if_pos hlt]
      obtain ⟨r, hr, hcase⟩ := ih hd
      refine ⟨r, hstep ▸ hr, ?_⟩
      rcases hcase with ⟨rfl, hall⟩ | ⟨l1, l2, heq, hbr, h1, h2⟩
      · exact Or.inr ⟨[], tl, rfl, hlt, by simp, hall⟩
      · refine Or.inr ⟨hd :: l1, l2, by rw [heq, List.cons_append], lt_trans hlt hbr, ?_, h2⟩
        intro u hu
        rcases List.mem_cons.mp hu with rfl | hu'
        · exact hbr
        · exact h1 u hu'
    · have hstep : bestLoop s (hd :: tl) (some (b, s b)) =
          bestLoop s tl (some (b, s b)) := by
        have : bestLoop s (hd :: tl) (some (b, s b)) =
            if s b < s hd then bestLoop s tl (some (hd, s hd))
            else bestLoop s tl (some (b, s b)) := rfl
        rw [this, if_neg hlt]
      obtain ⟨r, hr, hcase⟩ := ih b
      refine ⟨r, hstep ▸ hr, ?_⟩
      rcases hcase with ⟨rfl, hall⟩ | ⟨l1, l2, heq, hbr, h1, h2⟩
      · refine Or.inl ⟨rfl, ?_⟩
        intro u hu
        rcases List.mem_cons.mp hu with rfl | hu'
        · exact le_of_not_lt hlt
        · exact hall u hu'
      · refine Or.inr ⟨hd :: l1, l2, by rw [heq, List.cons_append], hbr, ?_, h2⟩
        intro u hu
        rcases List.mem_cons.mp hu with rfl | hu'
        · exact lt_of_le_of_lt (le_of_not_lt hlt) hbr
        · exact h1 u hu'

/-- Claim C4 counterexample: with an empty possible set, `calculate_entropy`
silently returns the ordinary numeric score 0 (the sum over zero pattern
buckets) and `get_best_guess` returns a word normally; no error condition is
raised. -/
theorem entropy_empty_possible_scores :
    calculate_entropy [] ['A', 'A', 'A', 'A', 'A'] = 0 ∧
      get_best_guess [['A', 'A', 'A', 'A', 'A']] [] = some ['A', 'A', 'A', 'A', 'A'] :=
  ⟨calculate_entropy_nil _, get_best_guess_singleton _ _⟩

/-- Claim C4 (amended): when the possible set is empty the code does not
surface an error: `calculate_entropy` returns the default score 0 for every
word, and `get_best_guess` returns the first candidate word normally. -/
theorem calculate_entropy_empty_no_error :
    (∀ w : Word, calculate_entropy [] w = 0) ∧
      ∀ (c : Word) (cs : List Word), get_best_guess (c :: cs) [] = some c := by
  refine ⟨calculate_entropy_nil, ?_⟩
  intro c cs
  rw [get_best_guess,
    show List.take 2315 (c :: cs) = c :: List.take 2314 cs from rfl]
  have hstep : bestLoop (calculate_entropy []) (c :: List.take 2314 cs) none =
      bestLoop (calculate_entropy []) (List.take 2314 cs)
        (some (c, calculate_entropy [] c)) := rfl
  have hall : ∀ w ∈ List.take 2314 cs,
      ¬calculate_entropy [] c < calculate_entropy [] w := by
    intro w _
    rw [calculate_entropy_nil, calculate_entropy_nil]
    exact lt_irrefl 0
  rw [hstep, bestLoop_keep _ _ _ _ hall]
  rfl

/-- Claim C6: `get_best_guess` is deterministic and first-wins: whenever the
candidate pool (the first 2315 allowed words) is nonempty, it returns the
word whose entropy is strictly above every earlier candidate's and not
exceeded by any later candidate's, in pool iteration order. -/
theorem get_best_guess_first_argmax (allowed possible : List Word)
    (h : allowed.take 2315 ≠ []) :
    ∃ w l1 l2, get_best_guess allowed possible = some w ∧
      allowed.take 2315 = l1 ++ w :: l2 ∧
      (∀ u ∈ l1, calculate_entropy possible u < calculate_entropy possible w) ∧
      ∀ u ∈ l2, calculate_entropy possible u ≤ calculate_entropy possible w := by
  obtain ⟨hd, tl, hws⟩ := List.exists_cons_of_ne_nil h
  rw [get_best_guess, hws]
  have hstep : bestLoop (calculate_entropy possible) (hd :: tl) none =
      bestLoop (calculate_entropy possible) tl
        (some (hd, calculate_entropy possible hd)) := rfl
  rw [hstep]
  obtain ⟨r, hr, hcase⟩ := bestLoop_first_argmax (calculate_entropy possible) tl hd
  rw [hr]
  rcases hcase with ⟨rfl, hall⟩ | ⟨l1, l2, heq, hbr, h1, h2⟩
  · exact ⟨r, [], tl, rfl, rfl, by simp, hall⟩
  · refine ⟨r, hd :: l1, l2, rfl, by rw [heq, List.cons_append], ?_, h2⟩
    intro u hu
    rcases List.mem_cons.mp hu with rfl | hu'
    · exact hbr
    · exact h1 u hu'

/-- Claim C6 witness: the theorem applied to a one-word allowed list. -/
theorem get_best_guess_first_argmax_witness :
    (List.take 2315 [(['A', 'A', 'A', 'A', 'A'] : Word)] ≠ []) ∧
    ∃ w l1 l2, get_best_guess [['A', 'A', 'A', 'A', 'A']] [] = some w ∧
      List.take 2315 [(['A', 'A', 'A', 'A', 'A'] : Word)] = l1 ++ w :: l2 ∧
      (∀ u ∈ l1, calculate_entropy [] u < calculate_entropy [] w) ∧
      ∀ u ∈ l2, calculate_entropy [] u ≤ calculate_entropy [] w :=
  ⟨by decide, get_best_guess_first_argmax _ _ (by decide)⟩

/-- Claim C10 witness: a concrete cleaned state and word on which the theorem
applies. -/
theorem is_word_valid_fourth_check_redundant_witness :
    (∀ p ∈ ({'Z'} : Finset Char), p ∉ ['A', '?', '?', '?', '?']) ∧
      is_word_valid ⟨[], ['A', '?', '?', '?', '?'], {'Z'}, ∅⟩ ['A', 'B', 'C', 'D', 'Z'] =
        (checkFixed ⟨[], ['A', '?', '?', '?', '?'], {'Z'}, ∅⟩ ['A', 'B', 'C', 'D', 'Z'] &&
          checkRequired ⟨[], ['A', '?', '?', '?', '?'], {'Z'}, ∅⟩ ['A', 'B', 'C', 'D', 'Z'] &&
          checkExcluded ⟨[], ['A', '?', '?', '?', '?'], {'Z'}, ∅⟩ ['A', 'B', 'C', 'D', 'Z']) :=
  ⟨by decide, is_word_valid_fourth_check_redundant _ _ (by decide)⟩

/-! ### List helpers for the filtering-soundness development -/

theorem getD_set_self {α : Type} (l : List α) (i : Nat) (a d : α) (h : i < l.length) :
    (l.set i a).getD i d = a := by
  have h' : i < (l.set i a).length := by rw [List.length_set]; exact h
  rw [List.getD_eq_getElem _ _ h']
  exact List.getElem_set_self h'

theorem getD_set_ne {α : Type} (l : List α) (i j : Nat) (a d : α) (h : i ≠ j) :
    (l.set i a).getD j d = l.getD j d := by
  by_cases hj : j < l.length
  · have hj' : j < (l.set i a).length := by rw [List.length_set]; exact hj
    rw [List.getD_eq_getElem _ _ hj', List.getD_eq_getElem _ _ hj]
    exact List.getElem_set_ne h hj'
  · rw [List.getD_eq_default _ _ (Nat.le_of_not_lt hj),
      List.getD_eq_default _ _ (by rw [List.length_set]; exact Nat.le_of_not_lt hj)]

theorem mem_of_getD {α : Type} (l : List α) (j : Nat) (d : α) (h : j < l.length) :
    l.getD j d ∈ l := by
  rw [List.getD_eq_getElem _ _ h]
  exact List.getElem_mem h

theorem mem_zip_getD (g : List Char) (pat : List Char) (a c : Char) :
    (a, c) ∈ g.zip pat ↔
      ∃ k, k < g.length ∧ k < pat.length ∧ g.getD k '?' = a ∧ pat.getD k '?' = c := by
  constructor
  · intro hmem
    obtain ⟨n, hn, hnp⟩ := List.mem_iff_getElem.mp hmem
    have hng : n < g.length := by rw [List.length_zip] at hn; omega
    have hnp' : n < pat.length := by rw [List.length_zip] at hn; omega
    refine ⟨n, hng, hnp', ?_, ?_⟩
    · rw [List.getD_eq_getElem _ _ hng]
      have : (g.zip pat)[n] = (g[n], pat[n]) := List.getElem_zip
      rw [this] at hnp
      exact (Prod.mk.injEq .. ▸ hnp).1
    · rw [List.getD_eq_getElem _ _ hnp']
      have : (g.zip pat)[n] = (g[n], pat[n]) := List.getElem_zip
      rw [this] at hnp
      exact (Prod.mk.injEq .. ▸ hnp).2
  · rintro ⟨k, hkg, hkp, hga, hpc⟩
    have hk : k < (g.zip pat).length := by rw [List.length_zip]; omega
    refine List.mem_iff_getElem.mpr ⟨k, hk, ?_⟩
    have : (g.zip pat)[k] = (g[k], pat[k]) := List.getElem_zip
    rw [this, ← List.getD_eq_getElem g '?' hkg, ← List.getD_eq_getElem pat '?' hkp, hga, hpc]

/-! ### Structure of the constraint-update loop (claim C1) -/

theorem applyFB_correct_length (fb : List (Char × Char)) :
    ∀ (st : KnowledgeState) (i : Nat),
      (applyFB st i fb).correct.length = st.correct.length := by
  induction fb with
  | nil => intro st i; rfl
  | cons hd tl ih =>
    intro st i
    obtain ⟨letter, color⟩ := hd
    simp only [applyFB]
    split
    · rw [ih]; simp
    · split
      · rw [ih]
      · split
        · rw [ih]
        · rw [ih]

theorem applyFB_correct_getD_lt (fb : List (Char × Char)) :
    ∀ (st : KnowledgeState) (i j : Nat), j < i →
      (applyFB st i fb).correct.getD j '?' = st.correct.getD j '?' := by
  induction fb with
  | nil => intro st i j _; rfl
  | cons hd tl ih =>
    intro st i j hj
    obtain ⟨letter, color⟩ := hd
    simp only [applyFB]
    split
    · rw [ih _ (i + 1) j (by omega)]
      exact getD_set_ne _ _ _ _ _ (by omega)
    · split
      · exact ih _ (i + 1) j (by omega)
      · split
        · exact ih _ (i + 1) j (by omega)
        · exact ih _ (i + 1) j (by omega)

theorem applyFB_correct_set (fb : List (Char × Char)) :
    ∀ (st : KnowledgeState) (i k : Nat), k < fb.length →
      (fb.getD k ('?', '?')).2 = 'C' → i + k < st.correct.length →
      (applyFB st i fb).correct.getD (i + k) '?' = (fb.getD k ('?', '?')).1 := by
  induction fb with
  | nil => intro st i k hk; simp at hk
  | cons hd tl ih =>
    intro st i k hk hcol hlen
    obtain ⟨letter, color⟩ := hd
    match k with
    | 0 =>
      simp only [List.getD_cons_zero] at hcol ⊢
      have hcol2 : color = 'C' := hcol
      subst hcol2
      rw [Nat.add_zero] at hlen ⊢
      have hstep : applyFB st i ((letter, 'C') :: tl) =
          applyFB { st with
            correct := st.correct.set i letter,
            present := st.present.erase letter } (i + 1) tl := by
        simp [applyFB]
      rw [hstep, applyFB_correct_getD_lt tl _ (i + 1) i (by omega)]
      exact getD_set_self _ _ _ _ hlen
    | k + 1 =>
      have hk' : k < tl.length := by simpa using hk
      have hcol' : (tl.getD k ('?', '?')).2 = 'C' := by simpa using hcol
      simp only [List.getD_cons_succ]
      have harith : i + (k + 1) = (i + 1) + k := by omega
      simp only [applyFB]
      split
      · rw [harith]
        exact ih _ (i + 1) k hk' hcol' (by
          show i + 1 + k < (st.correct.set i letter).length
          rw [List.length_set]; omega)
      · split
        · rw [harith]
          exact ih _ (i + 1) k hk' hcol' (by
            show i + 1 + k < st.correct.length
            omega)
        · split
          · rw [harith]
            exact ih _ (i + 1) k hk' hcol' (by
              show i + 1 + k < st.correct.length
              omega)
          · rw [harith]
            exact ih _ (i + 1) k hk' hcol' (by omega)

theorem applyFB_correct_cases (fb : List (Char × Char)) :
    ∀ (st : KnowledgeState) (i j : Nat),
      (applyFB st i fb).correct.getD j '?' = st.correct.getD j '?' ∨
        ∃ k, k < fb.length ∧ j = i + k ∧ (fb.getD k ('?', '?')).2 = 'C' ∧
          (applyFB st i fb).correct.getD j '?' = (fb.getD k ('?', '?')).1 := by
  induction fb with
  | nil => intro st i j; exact Or.inl rfl
  | cons hd tl ih =>
    intro st i j
    obtain ⟨letter, color⟩ := hd
    by_cases hC : color = 'C'
    · subst hC
      have hstep : applyFB st i ((letter, 'C') :: tl) =
          applyFB { st with
            correct := st.correct.set i letter,
            present := st.present.erase letter } (i + 1) tl := by
        simp [applyFB]
      rw [hstep]
      rcases ih { st with
          correct := st.correct.set i letter,
          present := st.present.erase letter } (i + 1) j with hleft | ⟨k, hk, hjk, hcol, hval⟩
      · by_cases hij : i = j
        · subst hij
          by_cases hlen : i < st.correct.length
          · refine Or.inr ⟨0, by simp, by omega, by simp, ?_⟩
            rw [hleft]
            simp only [List.getD_cons_zero]
            exact getD_set_self _ _ _ _ hlen
          · left
            rw [hleft]
            rw [List.getD_eq_default _ _ (by rw [List.length_set]; omega),
              List.getD_eq_default _ _ (by omega)]
        · left
          rw [hleft]
          exact getD_set_ne _ _ _ _ _ hij
      · exact Or.inr ⟨k + 1, by simpa using hk, by omega, by simpa using hcol,
          by simpa using hval⟩
    · have hstep : ∃ st' : KnowledgeState, st'.correct = st.correct ∧
          applyFB st i ((letter, color) :: tl) = applyFB st' (i + 1) tl := by
        by_cases hP : color = 'P'
        · exact ⟨{ st with present := insert letter st.present }, rfl, by simp [applyFB, hC, hP]⟩
        · by_cases hA : color = 'A'
          · exact ⟨{ st with absent := insert letter st.absent }, rfl, by
              simp [applyFB, hC, hP, hA]⟩
          · exact ⟨st, rfl, by simp [applyFB, hC, hP, hA]⟩
      obtain ⟨st', hst', hrw⟩ := hstep
      rw [hrw]
      rcases ih st' (i + 1) j with hleft | ⟨k, hk, hjk, hcol, hval⟩
      · left
        rw [hleft, hst']
      · exact Or.inr ⟨k + 1, by simpa using hk, by omega, by simpa using hcol,
          by simpa using hval⟩

theorem applyFB_cons_C (st : KnowledgeState) (i : Nat) (letter : Char)
    (tl : List (Char × Char)) :
    applyFB st i ((letter, 'C') :: tl) =
      applyFB { st with
        correct := st.correct.set i letter,
        present := st.present.erase letter } (i + 1) tl := by
  simp [applyFB]

theorem applyFB_cons_P (st : KnowledgeState) (i : Nat) (letter : Char)
    (tl : List (Char × Char)) :
    applyFB st i ((letter, 'P') :: tl) =
      applyFB { st with present := insert letter st.present } (i + 1) tl := by
  simp [applyFB]

theorem applyFB_cons_A (st : KnowledgeState) (i : Nat) (letter : Char)
    (tl : List (Char × Char)) :
    applyFB st i ((letter, 'A') :: tl) =
      applyFB { st with absent := insert letter st.absent } (i + 1) tl := by
  simp [applyFB]

theorem applyFB_cons_other (st : KnowledgeState) (i : Nat) (letter color : Char)
    (tl : List (Char × Char)) (hC : color ≠ 'C') (hP : color ≠ 'P') (hA : color ≠ 'A') :
    applyFB st i ((letter, color) :: tl) = applyFB st (i + 1) tl := by
  simp [applyFB, hC, hP, hA]

theorem applyFB_present_sub (fb : List (Char × Char)) :
    ∀ (st : KnowledgeState) (i : Nat) (a : Char),
      a ∈ (applyFB st i fb).present → a ∈ st.present ∨ (a, 'P') ∈ fb := by
  induction fb with
  | nil => intro st i a h; exact Or.inl h
  | cons hd tl ih =>
    intro st i a hmem
    obtain ⟨letter, color⟩ := hd
    by_cases hC : color = 'C'
    · subst hC
      rw [applyFB_cons_C] at hmem
      rcases ih _ (i + 1) a hmem with h | h
      · exact Or.inl (Finset.mem_of_mem_erase h)
      · exact Or.inr (List.mem_cons_of_mem _ h)
    · by_cases hP : color = 'P'
      · subst hP
        rw [applyFB_cons_P] at hmem
        rcases ih _ (i + 1) a hmem with h | h
        · rcases Finset.mem_insert.mp h with rfl | h'
          · exact Or.inr (List.mem_cons_self _ _)
          · exact Or.inl h'
        · exact Or.inr (List.mem_cons_of_mem _ h)
      · by_cases hA : color = 'A'
        · subst hA
          rw [applyFB_cons_A] at hmem
          rcases ih _ (i + 1) a hmem with h | h
          · exact Or.inl h
          · exact Or.inr (List.mem_cons_of_mem _ h)
        · rw [applyFB_cons_other st i letter color tl hC hP hA] at hmem
          rcases ih _ (i + 1) a hmem with h | h
          · exact Or.inl h
          · exact Or.inr (List.mem_cons_of_mem _ h)

theorem applyFB_absent_sub (fb : List (Char × Char)) :
    ∀ (st : KnowledgeState) (i : Nat) (a : Char),
      a ∈ (applyFB st i fb).absent → a ∈ st.absent ∨ (a, 'A') ∈ fb := by
  induction fb with
  | nil => intro st i a h; exact Or.inl h
  | cons hd tl ih =>
    intro st i a hmem
    obtain ⟨letter, color⟩ := hd
    by_cases hC : color = 'C'
    · subst hC
      rw [applyFB_cons_C] at hmem
      rcases ih _ (i + 1) a hmem with h | h
      · exact Or.inl h
      · exact Or.inr (List.mem_cons_of_mem _ h)
    · by_cases hP : color = 'P'
      · subst hP
        rw [applyFB_cons_P] at hmem
        rcases ih _ (i + 1) a hmem with h | h
        · exact Or.inl h
        · exact Or.inr (List.mem_cons_of_mem _ h)
      · by_cases hA : color = 'A'
        · subst hA
          rw [applyFB_cons_A] at hmem
          rcases ih _ (i + 1) a hmem with h | h
          · rcases Finset.mem_insert.mp h with rfl | h'
            · exact Or.inr (List.mem_cons_self _ _)
            · exact Or.inl h'
          · exact Or.inr (List.mem_cons_of_mem _ h)
        · rw [applyFB_cons_other st i letter color tl hC hP hA] at hmem
          rcases ih _ (i + 1) a hmem with h | h
          · exact Or.inl h
          · exact Or.inr (List.mem_cons_of_mem _ h)

theorem applyFB_present_persist (fb : List (Char × Char)) :
    ∀ (st : KnowledgeState) (i : Nat) (a : Char),
      a ∈ st.present → a ∈ (applyFB st i fb).present ∨ (a, 'C') ∈ fb := by
  induction fb with
  | nil => intro st i a h; exact Or.inl h
  | cons hd tl ih =>
    intro st i a hmem
    obtain ⟨letter, color⟩ := hd
    by_cases hC : color = 'C'
    · subst hC
      by_cases haL : a = letter
      · subst haL
        exact Or.inr (List.mem_cons_self _ _)
      · rw [applyFB_cons_C]
        rcases ih { st with
            correct := st.correct.set i letter,
            present := st.present.erase letter } (i + 1) a
            (by exact Finset.mem_erase.mpr ⟨haL, hmem⟩) with h | h
        · exact Or.inl h
        · exact Or.inr (List.mem_cons_of_mem _ h)
    · by_cases hP : color = 'P'
      · subst hP
        rw [applyFB_cons_P]
        rcases ih { st with present := insert letter st.present } (i + 1) a
            (by exact Finset.mem_insert_of_mem hmem) with h | h
        · exact Or.inl h
        · exact Or.inr (List.mem_cons_of_mem _ h)
      · by_cases hA : color = 'A'
        · subst hA
          rw [applyFB_cons_A]
          rcases ih { st with absent := insert letter st.absent } (i + 1) a
              (by exact hmem) with h | h
          · exact Or.inl h
          · exact Or.inr (List.mem_cons_of_mem _ h)
        · rw [applyFB_cons_other st i letter color tl hC hP hA]
          rcases ih st (i + 1) a hmem with h | h
          · exact Or.inl h
          · exact Or.inr (List.mem_cons_of_mem _ h)

theorem applyFB_P_mem (fb : List (Char × Char)) :
    ∀ (st : KnowledgeState) (i : Nat) (a : Char),
      (a, 'P') ∈ fb → a ∈ (applyFB st i fb).present ∨ (a, 'C') ∈ fb := by
  induction fb with
  | nil => intro st i a h; simp at h
  | cons hd tl ih =>
    intro st i a hin
    obtain ⟨letter, color⟩ := hd
    rcases List.mem_cons.mp hin with heq | hin'
    · obtain ⟨rfl, rfl⟩ := Prod.mk.injEq .. ▸ heq
      rw [applyFB_cons_P]
      rcases applyFB_present_persist tl { st with present := insert a st.present } (i + 1) a
          (by exact Finset.mem_insert_self a st.present) with h | h
      · exact Or.inl h
      · exact Or.inr (List.mem_cons_of_mem _ h)
    · by_cases hC : color = 'C'
      · subst hC
        rw [applyFB_cons_C]
        rcases ih _ (i + 1) a hin' with h | h
        · exact Or.inl h
        · exact Or.inr (List.mem_cons_of_mem _ h)
      · by_cases hP : color = 'P'
        · subst hP
          rw [applyFB_cons_P]
          rcases ih _ (i + 1) a hin' with h | h
          · exact Or.inl h
          · exact Or.inr (List.mem_cons_of_mem _ h)
        · by_cases hA : color = 'A'
          · subst hA
            rw [applyFB_cons_A]
            rcases ih _ (i + 1) a hin' with h | h
            · exact Or.inl h
            · exact Or.inr (List.mem_cons_of_mem _ h)
          · rw [applyFB_cons_other st i letter color tl hC hP hA]
            rcases ih _ (i + 1) a hin' with h | h
            · exact Or.inl h
            · exact Or.inr (List.mem_cons_of_mem _ h)

/-! ### Filtering soundness (claim C1) -/

theorem zip_mem_elim {α β : Type} (dx : α) (dy : β) (x : List α) (y : List β)
    (P : α × β → Prop)
    (h : ∀ j, j < x.length → j < y.length → P (x.getD j dx, y.getD j dy)) :
    ∀ p ∈ x.zip y, P p := by
  intro p hp
  obtain ⟨j, hj, hjp⟩ := List.mem_iff_getElem.mp hp
  have hjx : j < x.length := by rw [List.length_zip] at hj; omega
  have hjy : j < y.length := by rw [List.length_zip] at hj; omega
  have hz : (x.zip y)[j] = (x[j], y[j]) := List.getElem_zip
  rw [hz] at hjp
  rw [← hjp, ← List.getD_eq_getElem x dx hjx, ← List.getD_eq_getElem y dy hjy]
  exact h j hjx hjy

theorem zip_forall_getD {α β : Type} (dx : α) (dy : β) (x : List α) (y : List β)
    (P : α × β → Prop) (h : ∀ p ∈ x.zip y, P p) :
    ∀ j, j < x.length → j < y.length → P (x.getD j dx, y.getD j dy) := by
  intro j hjx hjy
  have hj : j < (x.zip y).length := by rw [List.length_zip]; omega
  refine h _ (List.mem_iff_getElem.mpr ⟨j, hj, ?_⟩)
  rw [show (x.zip y)[j] = (x[j], y[j]) from List.getElem_zip,
    ← List.getD_eq_getElem x dx hjx, ← List.getD_eq_getElem y dy hjy]

theorem checkPresentSlot_of_disjoint (st : KnowledgeState) (w : Word)
    (h : ∀ p ∈ st.present, p ∉ st.correct) : checkPresentSlot st w = true := by
  simp only [checkPresentSlot, decide_eq_true_eq]
  rintro p hp ⟨hmem, heq⟩
  rw [heq] at hmem
  exact h p.2 hmem (List.of_mem_zip hp).2

/-- Claim C1 counterexample: for an arbitrary knowledge state whose existing
constraints the secret does not satisfy (here a stale required letter 'Z'),
the secret is dropped by `update_state` even though it was in `possible` and
the feedback is the honestly computed pattern.  The claim as stated over every
knowledge state is therefore false. -/
theorem filtering_soundness_fails_for_arbitrary_state :
    ((['A', 'A', 'A', 'A', 'A'] : Word) ∈
      (⟨[['A', 'A', 'A', 'A', 'A']], List.replicate 5 '?', {'Z'}, ∅⟩ :
        KnowledgeState).possible) ∧
    ¬((['A', 'A', 'A', 'A', 'A'] : Word) ∈
      (update_state
        (⟨[['A', 'A', 'A', 'A', 'A']], List.replicate 5 '?', {'Z'}, ∅⟩ : KnowledgeState)
        (List.zip ['A', 'A', 'A', 'A', 'A']
          (get_pattern ['A', 'A', 'A', 'A', 'A'] ['A', 'A', 'A', 'A', 'A']))).possible) := by
  constructor
  · decide
  · decide

/-- Claim C1 (amended): filtering soundness holds for every knowledge state
whose accumulated constraints the secret word satisfies (`is_word_valid st t`,
as holds in every honestly-reported game): if the secret is in `possible` and
the feedback is the pattern computed for (guess, secret), the secret is still
in `possible` after `update_state`. -/
theorem filtering_soundness_of_consistent_state (st : KnowledgeState) (g t : Word)
    (hg : g.length = t.length) (hc : st.correct.length = t.length)
    (hposs : t ∈ st.possible) (hvalid : is_word_valid st t = true) :
    t ∈ (update_state st (g.zip (get_pattern g t))).possible := by
  have hpatlen : (get_pattern g t).length = g.length := get_pattern_length g t hg
  have hfblen : (g.zip (get_pattern g t)).length = g.length := by
    rw [List.length_zip, hpatlen, Nat.min_self]
  have hfbgetD : ∀ k, k < g.length →
      (g.zip (get_pattern g t)).getD k ('?', '?') =
        (g.getD k '?', (get_pattern g t).getD k '?') := by
    intro k hk
    exact zip_getD g _ k hk (by omega) '?' '?'
  have hst1len : (applyFB st 0 (g.zip (get_pattern g t))).correct.length = st.correct.length :=
    applyFB_correct_length _ st 0
  -- unpack the validity of t against the prior constraints
  have hv := hvalid
  simp only [is_word_valid, Bool.and_eq_true] at hv
  obtain ⟨⟨⟨hvF, hvR⟩, hvE⟩, _⟩ := hv
  simp only [checkFixed, decide_eq_true_eq] at hvF
  simp only [checkRequired, decide_eq_true_eq] at hvR
  simp only [checkExcluded, decide_eq_true_eq] at hvE
  have hvF' : ∀ j, j < t.length → st.correct.getD j '?' ≠ '?' →
      t.getD j '?' = st.correct.getD j '?' := by
    intro j hj hne
    exact zip_forall_getD '?' '?' st.correct t _ hvF j (by omega) hj hne
  -- the updated fixed positions track the secret
  have hKS : ∀ j, j < t.length →
      (applyFB st 0 (g.zip (get_pattern g t))).correct.getD j '?' = st.correct.getD j '?' ∨
        ((applyFB st 0 (g.zip (get_pattern g t))).correct.getD j '?' = t.getD j '?' ∧
          (get_pattern g t).getD j '?' = 'C') := by
    intro j hj
    rcases applyFB_correct_cases (g.zip (get_pattern g t)) st 0 j with h | ⟨k, hk, hjk, hcol, hval⟩
    · exact Or.inl h
    · have hkg : k < g.length := by rw [hfblen] at hk; exact hk
      have hjeq : j = k := by omega
      subst hjeq
      rw [hfbgetD j hkg] at hcol hval
      have hpatC : (get_pattern g t).getD j '?' = 'C' := hcol
      have hgt : g.getD j '?' = t.getD j '?' := (get_pattern_C_iff g t hg j hkg).mp hpatC
      refine Or.inr ⟨?_, hpatC⟩
      rw [show (applyFB st 0 (g.zip (get_pattern g t))).correct.getD j '?' = g.getD j '?' from hval]
      exact hgt
  have hCH1 : ∀ j, j < t.length → (applyFB st 0 (g.zip (get_pattern g t))).correct.getD j '?' ≠ '?' →
      t.getD j '?' = (applyFB st 0 (g.zip (get_pattern g t))).correct.getD j '?' := by
    intro j hj hne
    rcases hKS j hj with h | ⟨h, _⟩
    · rw [h] at hne ⊢
      exact hvF' j hj hne
    · rw [h]
  have hpersist : ∀ a : Char, a ≠ '?' → a ∈ st.correct → a ∈ (applyFB st 0 (g.zip (get_pattern g t))).correct := by
    intro a hne hmem
    obtain ⟨j, hj, hja⟩ := List.mem_iff_getElem.mp hmem
    have hjt : j < t.length := by omega
    have hgetD : st.correct.getD j '?' = a := by
      rw [List.getD_eq_getElem _ _ hj]; exact hja
    have hval : (applyFB st 0 (g.zip (get_pattern g t))).correct.getD j '?' = a := by
      rcases hKS j hjt with h | ⟨h, _⟩
      · rw [h, hgetD]
      · rw [h, hvF' j hjt (by rw [hgetD]; exact hne), hgetD]
    rw [← hval]
    exact mem_of_getD _ j '?' (by rw [hst1len]; omega)
  have hquest : ∀ j, j < t.length → t.getD j '?' = '?' → ('?' ∈ (applyFB st 0 (g.zip (get_pattern g t))).correct) := by
    intro j hj hq
    have hval : (applyFB st 0 (g.zip (get_pattern g t))).correct.getD j '?' = '?' := by
      rcases hKS j hj with h | ⟨h, _⟩
      · rw [h]
        by_cases hz : st.correct.getD j '?' = '?'
        · exact hz
        · have h2 := hvF' j hj hz
          rw [hq] at h2
          exact absurd h2.symm hz
      · rw [h, hq]
    rw [← hval]
    exact mem_of_getD _ j '?' (by rw [hst1len]; omega)
  have hCmem : ∀ a : Char, (a, 'C') ∈ (g.zip (get_pattern g t)) → a ∈ (applyFB st 0 (g.zip (get_pattern g t))).correct := by
    intro a hmem
    obtain ⟨k, hkg, hkp, hga, hpc⟩ := (mem_zip_getD g _ a 'C').mp hmem
    have hset := applyFB_correct_set (g.zip (get_pattern g t)) st 0 k
      (by rw [hfblen]; omega)
      (by rw [hfbgetD k hkg]; exact hpc)
      (by omega)
    rw [Nat.zero_add] at hset
    have hval : (applyFB st 0 (g.zip (get_pattern g t))).correct.getD k '?' = a := by
      rw [hset, hfbgetD k hkg]
      exact hga
    rw [← hval]
    exact mem_of_getD _ k '?' (by rw [hst1len]; omega)
  have hpresent_t : ∀ a : Char, a ∈ (applyFB st 0 (g.zip (get_pattern g t))).present → a ∈ t := by
    intro a ha
    rcases applyFB_present_sub _ st 0 a ha with h | h
    · exact hvR a h
    · obtain ⟨k, hkg, hkp, hga, hpc⟩ := (mem_zip_getD g _ a 'P').mp h
      rw [← hga]
      exact get_pattern_P_mem g t hg k hkg hpc
  have hAmem : ∀ a : Char, (a, 'A') ∈ (g.zip (get_pattern g t)) → a ∈ t →
      a ∈ (applyFB st 0 (g.zip (get_pattern g t))).correct ∨ a ∈ (applyFB st 0 (g.zip (get_pattern g t))).present := by
    intro a hmem hat
    obtain ⟨k, hkg, hkp, hga, hpc⟩ := (mem_zip_getD g _ a 'A').mp hmem
    obtain ⟨m, hm, hml, hmp⟩ := get_pattern_A_dup g t hg k hkg hpc (by rw [hga]; exact hat)
    have hma : g.getD m '?' = a := by rw [hml]; exact hga
    rcases get_pattern_symbol g t hg m hm with hC | hP | hA
    · left
      exact hCmem a ((mem_zip_getD g _ a 'C').mpr ⟨m, hm, by omega, hma, hC⟩)
    · have hPmem : (a, 'P') ∈ (g.zip (get_pattern g t)) :=
        (mem_zip_getD g _ a 'P').mpr ⟨m, hm, by omega, hma, hP⟩
      rcases applyFB_P_mem _ st 0 a hPmem with h | h
      · exact Or.inr h
      · exact Or.inl (hCmem a h)
    · exact absurd hA hmp
  -- the four checks on the cleaned updated state
  have hch1 : checkFixed (clean_constraints (applyFB st 0 (g.zip (get_pattern g t)))) t = true := by
    simp only [checkFixed, clean_constraints_correct, decide_eq_true_eq]
    refine zip_mem_elim '?' '?' _ t (fun p => p.1 ≠ '?' → p.2 = p.1) ?_
    intro j hjx hjt hne
    exact hCH1 j hjt hne
  have hch2 : checkRequired (clean_constraints (applyFB st 0 (g.zip (get_pattern g t)))) t = true := by
    simp only [checkRequired, decide_eq_true_eq]
    intro p hp
    have hp1 : p ∈ (applyFB st 0 (g.zip (get_pattern g t))).present := by
      have := hp
      simp only [clean_constraints, Finset.mem_filter] at this
      exact this.1
    exact hpresent_t p hp1
  have hch3 : checkExcluded (clean_constraints (applyFB st 0 (g.zip (get_pattern g t)))) t = true := by
    simp only [checkExcluded, decide_eq_true_eq]
    intro a ha hnc2 hnp2
    simp only [clean_constraints, Finset.mem_filter, not_and, not_not] at ha
    obtain ⟨ha1, hanc, hanp⟩ := ha
    intro hat
    rcases applyFB_absent_sub _ st 0 a ha1 with hold | hnew
    · by_cases hq : a = '?'
      · subst hq
        obtain ⟨j, hj, hja⟩ := List.mem_iff_getElem.mp hat
        exact hanc (hquest j hj (by rw [List.getD_eq_getElem _ _ hj]; exact hja))
      · have hnc : a ∉ st.correct := fun hmem => hanc (hpersist a hq hmem)
        have hnp : a ∉ st.present := by
          intro hmem
          rcases applyFB_present_persist _ st 0 a hmem with h | h
          · exact hanc (hanp h)
          · exact hanc (hCmem a h)
        exact hvE a hold hnc hnp hat
    · rcases hAmem a hnew hat with h | h
      · exact hanc h
      · exact hanc (hanp h)
  have hch4 : checkPresentSlot (clean_constraints (applyFB st 0 (g.zip (get_pattern g t)))) t = true := by
    refine checkPresentSlot_of_disjoint _ t ?_
    intro p hp
    have := hp
    simp only [clean_constraints, Finset.mem_filter] at this
    exact this.2
  rw [update_state_possible]
  apply List.mem_filter.mpr
  refine ⟨hposs, ?_⟩
  show is_word_valid (clean_constraints (applyFB st 0 (g.zip (get_pattern g t)))) t = true
  simp [is_word_valid, hch1, hch2, hch3, hch4]

/-- Claim C1 witness: a concrete consistent state, guess and secret on which
the amended soundness theorem applies. -/
theorem filtering_soundness_of_consistent_state_witness :
    ((['S', 'L', 'A', 'T', 'E'] : Word).length = (['C', 'R', 'A', 'N', 'E'] : Word).length ∧
      (List.replicate 5 '?').length = (['C', 'R', 'A', 'N', 'E'] : Word).length ∧
      (['C', 'R', 'A', 'N', 'E'] : Word) ∈
        [(['C', 'R', 'A', 'N', 'E'] : Word), ['S', 'L', 'A', 'T', 'E']] ∧
      is_word_valid
        (⟨[['C', 'R', 'A', 'N', 'E'], ['S', 'L', 'A', 'T', 'E']],
          List.replicate 5 '?', ∅, ∅⟩ : KnowledgeState) ['C', 'R', 'A', 'N', 'E'] = true) ∧
    (['C', 'R', 'A', 'N', 'E'] : Word) ∈
      (update_state
        (⟨[['C', 'R', 'A', 'N', 'E'], ['S', 'L', 'A', 'T', 'E']],
          List.replicate 5 '?', ∅, ∅⟩ : KnowledgeState)
        (List.zip ['S', 'L', 'A', 'T', 'E']
          (get_pattern ['S', 'L', 'A', 'T', 'E'] ['C', 'R', 'A', 'N', 'E']))).possible :=
  ⟨⟨by decide, by decide, by decide, by decide⟩,
    filtering_soundness_of_consistent_state _ _ _ (by decide) (by decide) (by decide) (by decide)⟩

end WordleSolver
